import Mathlib

/-!
Shallow embedding of `dependency_visualizer.py`, the core of the
DZ_2_Ozerov repository: a metadata parser (`parse_packages_data`),
a dependency-graph builder (`build_dependency_graph`) and a graph
serializer (`generate_graphviz_code`).

Strings are modelled as `List Char`; Python dictionaries (which preserve
insertion order and overwrite values in place) are modelled as ordered
association lists; Python sets of strings are modelled as duplicate-free
lists in insertion order (a deterministic refinement of the unordered
Python set).  The recursive depth-first search of the builder is modelled
with explicit fuel returning `Option`; `dfs_isSome_of_enough_fuel` below
shows the canonical fuel used by `build_dependency_graph` always
suffices, so the fuel-exhaustion branch is dead code.
-/

/-- Strings of the Python program, modelled as lists of characters. -/
abbrev PyStr := List Char

/-- Python whitespace test used by `str.strip` (ASCII fragment). -/
def isPySpace (c : Char) : Bool :=
  c = ' ' || c = '\t' || c = '\n' || c = '\r' || c = '\x0b' || c = '\x0c'

/-- Remove leading whitespace, as the left half of Python `str.strip`. -/
def stripLeft (l : PyStr) : PyStr := l.dropWhile isPySpace

/-- Remove trailing whitespace, as the right half of Python `str.strip`. -/
def stripRight (l : PyStr) : PyStr := (l.reverse.dropWhile isPySpace).reverse

/-- Python `str.strip()` with no argument: trim whitespace on both sides. -/
def pyStrip (l : PyStr) : PyStr := stripRight (stripLeft l)

/-- Python `s.split(c)` for a one-character separator: split at every
occurrence of `c`, keeping empty pieces; the result is never empty. -/
def splitOnChar (c : Char) : PyStr → List PyStr
  | [] => [[]]
  | x :: xs =>
    match splitOnChar c xs with
    | [] => [[]]
    | r :: rs => if x = c then [] :: r :: rs else (x :: r) :: rs

/-- Python `s.split(c, 1)` when `c` occurs in `s`: the part before the
first occurrence of `c` and the part after it. -/
def splitFirst (c : Char) : PyStr → PyStr × PyStr
  | [] => ([], [])
  | x :: xs =>
    if x = c then ([], xs)
    else
      let p := splitFirst c xs
      (x :: p.1, p.2)

/-- Python `c.join(lines)` for a one-character separator. -/
def joinChar (c : Char) : List PyStr → PyStr
  | [] => []
  | [l] => l
  | l :: ls => l ++ c :: joinChar c ls

/-- Ordered association list standing for a Python `dict`. -/
abbrev PyDict (α : Type) := List (PyStr × α)

/-- Python `d[k]` or `d.get(k)`: the value stored under the key, if any. -/
def dlookup {α : Type} : PyDict α → PyStr → Option α
  | [], _ => none
  | (k, v) :: rest, key => if k = key then some v else dlookup rest key

/-- Python `k in d`: key-membership test. -/
def containsKey {α : Type} (d : PyDict α) (key : PyStr) : Bool :=
  (dlookup d key).isSome

/-- Python `d[k] = v`: overwrite in place when the key exists (keeping its
position, as Python dicts do), otherwise append a fresh entry. -/
def dinsert {α : Type} : PyDict α → PyStr → α → PyDict α
  | [], key, v => [(key, v)]
  | (k, w) :: rest, key, v =>
    if k = key then (key, v) :: rest else (k, w) :: dinsert rest key v

/-! ### Metadata parser (`parse_packages_data`) -/

/-- Dependency-list extraction of `parse_packages_data`: the Python
expression `[dep.strip().split(' ')[0] for dep in depends.split(',')] if
depends else []`. -/
def parseDepends (depends : PyStr) : List PyStr :=
  if depends.isEmpty then []
  else (splitOnChar ',' depends).map fun dep => ((splitOnChar ' ' (pyStrip dep)).headD [])

/-- Blank-line action of the parser loop: commit the current record to the
index when it has a Package field, then reset the record. -/
def commitRecord (info : PyDict (List PyStr)) (cp : PyDict PyStr) : PyDict (List PyStr) :=
  match dlookup cp "Package".data with
  | some package_name => dinsert info package_name (parseDepends ((dlookup cp "Depends".data).getD []))
  | none => info

/-- One iteration of the `for line in packages_data.split(chr(10))` loop of
`parse_packages_data`; the state is the pair (packages_info, current_package). -/
def parseStep (st : PyDict (List PyStr) × PyDict PyStr) (line : PyStr) :
    PyDict (List PyStr) × PyDict PyStr :=
  if pyStrip line = [] then
    (commitRecord st.1 st.2, [])
  else if ':' ∈ line then
    let p := splitFirst ':' line
    (st.1, dinsert st.2 (pyStrip p.1) (pyStrip p.2))
  else
    st

/-- The parser `parse_packages_data` of the source: fold the line action
over the newline-split input and return the accumulated index. -/
def parse_packages_data (packages_data : PyStr) : PyDict (List PyStr) :=
  ((splitOnChar '\n' packages_data).foldl parseStep ([], [])).1

/-! ### Dependency graph builder (`build_dependency_graph`) -/

/-- State of the depth-first search: the graph built so far (a dict of
string sets, sets as insertion-ordered duplicate-free lists) and the
visited set (in visiting order). -/
structure BuildState where
  graph : PyDict (List PyStr)
  visited : List PyStr
deriving DecidableEq, Repr

/-- Python `graph[pkg]` on a `defaultdict(set)`: create an empty entry
when the key is missing, otherwise change nothing. -/
def ensureKey : PyDict (List PyStr) → PyStr → PyDict (List PyStr)
  | [], pkg => [(pkg, [])]
  | (k, v) :: rest, pkg =>
    if k = pkg then (k, v) :: rest else (k, v) :: ensureKey rest pkg

/-- Python `s.add(x)` on a set modelled as a duplicate-free list. -/
def setAdd (s : List PyStr) (x : PyStr) : List PyStr :=
  if x ∈ s then s else s ++ [x]

/-- Python `graph[pkg].add(dep)` on a `defaultdict(set)`. -/
def addEdge : PyDict (List PyStr) → PyStr → PyStr → PyDict (List PyStr)
  | [], pkg, dep => [(pkg, [dep])]
  | (k, v) :: rest, pkg, dep =>
    if k = pkg then (k, setAdd v dep) :: rest else (k, v) :: addEdge rest pkg dep

/-- The `for dep in dependencies` loop body of `dfs`: record the edge
`pkg -> dep`, then recurse into `dep` through the supplied search
function, threading the state left to right. -/
def dfsList (dfsF : PyStr → BuildState → Option BuildState) (pkg : PyStr) :
    List PyStr → BuildState → Option BuildState
  | [], st => some st
  | dep :: rest, st =>
    match dfsF dep ⟨addEdge st.graph pkg dep, st.visited⟩ with
    | none => none
    | some st2 => dfsList dfsF pkg rest st2

/-- The recursive `dfs` closure of `build_dependency_graph`, with explicit
fuel bounding the recursion depth (`none` = fuel exhausted, which never
happens at the canonical fuel, see `dfs_isSome_of_enough_fuel`). -/
def dfs (info : PyDict (List PyStr)) : Nat → PyStr → BuildState → Option BuildState
  | 0, _, _ => none
  | fuel + 1, pkg, st =>
    if pkg ∈ st.visited then some st
    else
      dfsList (dfs info fuel) pkg ((dlookup info pkg).getD [])
        ⟨ensureKey st.graph pkg, st.visited ++ [pkg]⟩

/-- Total number of dependency entries of the index; the recursion depth
of `dfs` never exceeds the number of distinct visitable names, which this
bounds. -/
def allDepsLen (info : PyDict (List PyStr)) : Nat :=
  info.foldr (fun p acc => p.2.length + acc) 0

/-- Canonical fuel for the search: enough for the root plus every name
occurring in a dependency list, plus one final re-visit. -/
def buildFuel (info : PyDict (List PyStr)) : Nat := allDepsLen info + 2

/-- The builder `build_dependency_graph` of the source: reject an unknown
root with the not-found error, otherwise run the depth-first search from
the root on empty state and return the graph. -/
def build_dependency_graph (package_name : PyStr) (packages_info : PyDict (List PyStr)) :
    Except PyStr (PyDict (List PyStr)) :=
  if containsKey packages_info package_name = false then
    .error ("Package ".data ++ package_name ++ " not found in repository.".data)
  else
    match dfs packages_info (buildFuel packages_info) package_name ⟨[], []⟩ with
    | some st => .ok st.graph
    | none => .error "recursion limit exceeded".data

/-! ### Graph serializer (`generate_graphviz_code`) -/

/-- One directed-edge statement, the Python f-string with four spaces of
indentation: quoted package, arrow, quoted dependency, semicolon. -/
def edgeLine (pkg dep : PyStr) : PyStr :=
  "    \"".data ++ pkg ++ "\" -> \"".data ++ dep ++ "\";".data

/-- The nested `for pkg, deps in graph.items(): for dep in deps:` loop of
the serializer, collecting one line per recorded edge. -/
def edgeLines : PyDict (List PyStr) → List PyStr
  | [] => []
  | (pkg, deps) :: rest => deps.map (fun dep => edgeLine pkg dep) ++ edgeLines rest

/-- The serializer `generate_graphviz_code` of the source: header line,
edge statements, closing brace, joined with newlines. -/
def generate_graphviz_code (graph : PyDict (List PyStr)) : PyStr :=
  joinChar '\n' ("digraph G \x7b".data :: (edgeLines graph ++ ["\x7d".data]))

/-! ### Reachability along index dependency edges -/

/-- Direct dependencies of a package according to the index (empty for a
name absent from the index), as used by `dfs`. -/
def depsOf (info : PyDict (List PyStr)) (pkg : PyStr) : List PyStr :=
  (dlookup info pkg).getD []

/-- Reachability by zero or more dependency edges of the index. -/
inductive Reaches (info : PyDict (List PyStr)) : PyStr → PyStr → Prop
  | refl (p : PyStr) : Reaches info p p
  | step {p q r : PyStr} : Reaches info p q → r ∈ depsOf info q → Reaches info p r

/-! ### Invariants and measures of the search -/

/-- The keys of the partial graph are exactly the visited packages. -/
def KeysVisited (st : BuildState) : Prop :=
  ∀ p, containsKey st.graph p = true ↔ p ∈ st.visited

/-- Every visited package is reachable from the root. -/
def VisitedReach (info : PyDict (List PyStr)) (root : PyStr) (st : BuildState) : Prop :=
  ∀ p ∈ st.visited, Reaches info root p

/-- Every recorded edge target is visited, except possibly targets in the
pending list `X` (the dependency currently being expanded). -/
def PendingOK (st : BuildState) (X : List PyStr) : Prop :=
  ∀ p deps d, dlookup st.graph p = some deps → d ∈ deps → d ∈ st.visited ∨ d ∈ X

/-- Specification of one search call preserved by the invariant proof:
successful calls keep the invariants, mark the argument visited and only
grow the visited set. -/
def DfsSpec (info : PyDict (List PyStr)) (root : PyStr)
    (dfsF : PyStr → BuildState → Option BuildState) : Prop :=
  ∀ pkg st st' X, dfsF pkg st = some st' →
    KeysVisited st → VisitedReach info root st → Reaches info root pkg →
    PendingOK st X →
    KeysVisited st' ∧ VisitedReach info root st' ∧ PendingOK st' X ∧
      pkg ∈ st'.visited ∧ st.visited ⊆ st'.visited

/-- Every dependency name occurring in any dependency list of the index. -/
def depsAll (info : PyDict (List PyStr)) : List PyStr :=
  info.foldr (fun p acc => p.2 ++ acc) []

/-- Number of pool names not yet visited, the decreasing measure of the
search. -/
def missingCount (pool visited : List PyStr) : Nat :=
  (pool.filter (fun x => decide (x ∉ visited))).length

/-! ### String-function lemmas -/

theorem splitOnChar_ne_nil (c : Char) (l : PyStr) : splitOnChar c l ≠ [] := by
  cases l with
  | nil => simp [splitOnChar]
  | cons x xs =>
    simp only [splitOnChar]
    cases h : splitOnChar c xs with
    | nil => simp
    | cons r rs =>
      by_cases hx : x = c <;> simp [hx]

theorem splitOnChar_of_not_mem {c : Char} {l : PyStr} (h : c ∉ l) :
    splitOnChar c l = [l] := by
  induction l with
  | nil => rfl
  | cons x xs ih =>
    have hx : x ≠ c := fun he => h (he ▸ List.mem_cons_self x xs)
    have hxs : c ∉ xs := fun hm => h (List.mem_cons_of_mem x hm)
    simp [splitOnChar, ih hxs, hx]

theorem splitOnChar_append_cons (c : Char) (a b : PyStr) :
    splitOnChar c (a ++ c :: b) = splitOnChar c a ++ splitOnChar c b := by
  induction a with
  | nil =>
    show splitOnChar c (c :: b) = splitOnChar c [] ++ splitOnChar c b
    simp only [splitOnChar]
    cases h : splitOnChar c b with
    | nil => exact absurd h (splitOnChar_ne_nil c b)
    | cons r rs => simp
  | cons x xs ih =>
    show splitOnChar c (x :: (xs ++ c :: b)) = splitOnChar c (x :: xs) ++ splitOnChar c b
    simp only [splitOnChar, ih]
    cases h : splitOnChar c xs with
    | nil => exact absurd h (splitOnChar_ne_nil c xs)
    | cons r rs =>
      by_cases hx : x = c <;> simp [hx]

theorem splitFirst_append_cons {c : Char} {a : PyStr} (b : PyStr) (h : c ∉ a) :
    splitFirst c (a ++ c :: b) = (a, b) := by
  induction a with
  | nil => simp [splitFirst]
  | cons x xs ih =>
    have hx : x ≠ c := fun he => h (he ▸ List.mem_cons_self x xs)
    have hxs : c ∉ xs := fun hm => h (List.mem_cons_of_mem x hm)
    simp [splitFirst, hx, ih hxs]

theorem stripLeft_eq_nil_iff {l : PyStr} :
    stripLeft l = [] ↔ ∀ c ∈ l, isPySpace c = true := by
  unfold stripLeft
  exact List.dropWhile_eq_nil_iff

theorem stripRight_eq_nil_iff {l : PyStr} :
    stripRight l = [] ↔ ∀ c ∈ l, isPySpace c = true := by
  unfold stripRight
  rw [List.reverse_eq_nil_iff, List.dropWhile_eq_nil_iff]
  constructor
  · intro h c hc
    exact h c (List.mem_reverse.mpr hc)
  · intro h c hc
    exact h c (List.mem_reverse.mp hc)

theorem pyStrip_eq_nil_iff {l : PyStr} :
    pyStrip l = [] ↔ ∀ c ∈ l, isPySpace c = true := by
  unfold pyStrip
  rw [stripRight_eq_nil_iff]
  constructor
  · intro h c hc
    have hsplit : l.takeWhile isPySpace ++ l.dropWhile isPySpace = l :=
      List.takeWhile_append_dropWhile isPySpace l
    rw [← hsplit] at hc
    rcases List.mem_append.mp hc with hc | hc
    · exact List.mem_takeWhile_imp hc
    · exact h c hc
  · intro h c hc
    have hsplit : l.takeWhile isPySpace ++ l.dropWhile isPySpace = l :=
      List.takeWhile_append_dropWhile isPySpace l
    refine h c ?_
    rw [← hsplit]
    exact List.mem_append_right _ hc

theorem pyStrip_ne_nil_of_mem {c : Char} {l : PyStr} (hc : c ∈ l)
    (hws : isPySpace c = false) : pyStrip l ≠ [] := by
  intro h
  simp [pyStrip_eq_nil_iff.mp h c hc] at hws

theorem stripLeft_cons_ws {c : Char} (l : PyStr) (h : isPySpace c = true) :
    stripLeft (c :: l) = stripLeft l := by
  simp [stripLeft, List.dropWhile_cons, h]

theorem stripLeft_cons_not_ws {c : Char} (l : PyStr) (h : isPySpace c = false) :
    stripLeft (c :: l) = c :: l := by
  simp [stripLeft, List.dropWhile_cons, h]

theorem pyStrip_cons_ws {c : Char} (l : PyStr) (h : isPySpace c = true) :
    pyStrip (c :: l) = pyStrip l := by
  unfold pyStrip
  rw [stripLeft_cons_ws l h]

theorem stripRight_append_of_ne_nil {b : PyStr} (a : PyStr) (h : stripRight b ≠ []) :
    stripRight (a ++ b) = a ++ stripRight b := by
  unfold stripRight at *
  rw [List.reverse_append, List.dropWhile_append]
  have hb : ¬(b.reverse.dropWhile isPySpace).isEmpty = true := by
    intro he
    exact h (by simp [List.isEmpty_iff.mp he])
  simp only [hb, if_false]
  simp

theorem stripRight_of_not_ws {l : PyStr} (h : ∀ c ∈ l, isPySpace c = false) :
    stripRight l = l := by
  unfold stripRight
  have h' : ∀ c ∈ l.reverse, isPySpace c = false := fun c hc => h c (List.mem_reverse.mp hc)
  have hd : List.dropWhile isPySpace l.reverse = l.reverse := by
    rw [List.dropWhile_eq_self_iff]
    intro hne hx
    rw [h' _ (List.get_mem l.reverse 0 hne)] at hx
    exact Bool.noConfusion hx
  rw [hd, List.reverse_reverse]

theorem stripLeft_of_not_ws {l : PyStr} (h : ∀ c ∈ l, isPySpace c = false) :
    stripLeft l = l := by
  unfold stripLeft
  rw [List.dropWhile_eq_self_iff]
  intro hne
  simp [h _ (List.getElem_mem hne)]

theorem pyStrip_of_not_ws {l : PyStr} (h : ∀ c ∈ l, isPySpace c = false) :
    pyStrip l = l := by
  unfold pyStrip
  rw [stripLeft_of_not_ws h, stripRight_of_not_ws h]

/-! ### Dictionary lemmas -/

theorem dlookup_dinsert_self {α : Type} (d : PyDict α) (k : PyStr) (v : α) :
    dlookup (dinsert d k v) k = some v := by
  induction d with
  | nil => simp [dinsert, dlookup]
  | cons p rest ih =>
    obtain ⟨k', w⟩ := p
    by_cases h : k' = k <;> simp [dinsert, dlookup, h, ih]

theorem dlookup_dinsert_ne {α : Type} (d : PyDict α) {k key : PyStr} (v : α)
    (h : k ≠ key) : dlookup (dinsert d k v) key = dlookup d key := by
  induction d with
  | nil => simp [dinsert, dlookup, h]
  | cons p rest ih =>
    obtain ⟨k', w⟩ := p
    by_cases h' : k' = k
    · subst h'
      simp [dinsert, dlookup, h]
    · simp [dinsert, dlookup, h', ih]

/-! ### Parser fold lemmas -/

theorem parseStep_fst_of_nonblank (st : PyDict (List PyStr) × PyDict PyStr)
    {line : PyStr} (h : pyStrip line ≠ []) : (parseStep st line).1 = st.1 := by
  unfold parseStep
  rw [if_neg h]
  by_cases hc : ':' ∈ line <;> simp [hc]

theorem foldl_parseStep_fst_of_nonblank {ls : List PyStr}
    (h : ∀ l ∈ ls, pyStrip l ≠ []) (st : PyDict (List PyStr) × PyDict PyStr) :
    (ls.foldl parseStep st).1 = st.1 := by
  induction ls generalizing st with
  | nil => rfl
  | cons l rest ih =>
    rw [List.foldl_cons, ih (fun x hx => h x (List.mem_cons_of_mem l hx))]
    exact parseStep_fst_of_nonblank st (h l (List.mem_cons_self l rest))

theorem parseStep_nonblank_colon (st : PyDict (List PyStr) × PyDict PyStr)
    {line : PyStr} (h : pyStrip line ≠ []) (hc : ':' ∈ line) :
    parseStep st line =
      (st.1, dinsert st.2 (pyStrip (splitFirst ':' line).1) (pyStrip (splitFirst ':' line).2)) := by
  unfold parseStep
  rw [if_neg h, if_pos hc]

theorem parseStep_blank (st : PyDict (List PyStr) × PyDict PyStr)
    {line : PyStr} (h : pyStrip line = []) :
    parseStep st line = (commitRecord st.1 st.2, []) := by
  unfold parseStep
  rw [if_pos h]

theorem parse_packages_data_append_newline (t r : PyStr) :
    parse_packages_data (t ++ '\n' :: r) =
      ((splitOnChar '\n' r).foldl parseStep
        ((splitOnChar '\n' t).foldl parseStep ([], []))).1 := by
  unfold parse_packages_data
  rw [splitOnChar_append_cons, List.foldl_append]

/-! ### Record-line evaluation lemmas -/

theorem parseStep_package_line (st : PyDict (List PyStr) × PyDict PyStr)
    {X : PyStr} (hX : pyStrip X = X) :
    parseStep st ("Package: ".data ++ X) = (st.1, dinsert st.2 "Package".data X) := by
  have hline : "Package: ".data ++ X = "Package".data ++ ':' :: (' ' :: X) := rfl
  have hmem : 'P' ∈ "Package: ".data ++ X := List.mem_append_left X (by decide)
  have hnb : pyStrip ("Package: ".data ++ X) ≠ [] :=
    pyStrip_ne_nil_of_mem hmem (by decide)
  have hc : ':' ∈ "Package: ".data ++ X := List.mem_append_left X (by decide)
  rw [parseStep_nonblank_colon st hnb hc, hline,
    splitFirst_append_cons (' ' :: X) (by decide)]
  have h1 : pyStrip "Package".data = "Package".data := by decide
  have h2 : pyStrip (' ' :: X) = X := by
    rw [pyStrip_cons_ws X (by decide), hX]
  rw [h1, h2]

theorem parseStep_depends_line (st : PyDict (List PyStr) × PyDict PyStr)
    {V : PyStr} (hV : pyStrip V = V) :
    parseStep st ("Depends: ".data ++ V) = (st.1, dinsert st.2 "Depends".data V) := by
  have hline : "Depends: ".data ++ V = "Depends".data ++ ':' :: (' ' :: V) := rfl
  have hmem : 'D' ∈ "Depends: ".data ++ V := List.mem_append_left V (by decide)
  have hnb : pyStrip ("Depends: ".data ++ V) ≠ [] :=
    pyStrip_ne_nil_of_mem hmem (by decide)
  have hc : ':' ∈ "Depends: ".data ++ V := List.mem_append_left V (by decide)
  rw [parseStep_nonblank_colon st hnb hc, hline,
    splitFirst_append_cons (' ' :: V) (by decide)]
  have h1 : pyStrip "Depends".data = "Depends".data := by decide
  have h2 : pyStrip (' ' :: V) = V := by
    rw [pyStrip_cons_ws V (by decide), hV]
  rw [h1, h2]

theorem parseStep_depends_empty_line (st : PyDict (List PyStr) × PyDict PyStr) :
    parseStep st "Depends:".data = (st.1, dinsert st.2 "Depends".data []) := by
  rw [parseStep_nonblank_colon st (by decide) (by decide)]
  have h : splitFirst ':' "Depends:".data = ("Depends".data, []) := by decide
  rw [h]
  have h1 : pyStrip "Depends".data = "Depends".data := by decide
  have h2 : pyStrip ([] : PyStr) = [] := by decide
  rw [h1, h2]

theorem commitRecord_package_depends (info : PyDict (List PyStr)) (cp : PyDict PyStr)
    (X D : PyStr) :
    commitRecord info (dinsert (dinsert cp "Package".data X) "Depends".data D) =
      dinsert info X (parseDepends D) := by
  unfold commitRecord
  rw [dlookup_dinsert_ne _ D (by decide), dlookup_dinsert_self,
    dlookup_dinsert_self]
  rfl

theorem commitRecord_package_only (info : PyDict (List PyStr)) (X : PyStr) :
    commitRecord info (dinsert ([] : PyDict PyStr) "Package".data X) =
      dinsert info X (parseDepends []) := by
  unfold commitRecord
  rw [dlookup_dinsert_self, dlookup_dinsert_ne _ X (by decide)]
  rfl

/-! ### Dependency-string lemmas -/

theorem not_mem_of_all_not_ws {l : PyStr} (h : ∀ c ∈ l, isPySpace c = false)
    {s : Char} (hs : isPySpace s = true) : s ∉ l := by
  intro hm
  rw [h s hm] at hs
  exact Bool.noConfusion hs

theorem parseDepends_versioned_pair {d1 d2 : PyStr} (h1ne : d1 ≠ [])
    (h1 : ∀ c ∈ d1, isPySpace c = false ∧ c ≠ ',')
    (h2ne : d2 ≠ []) (h2 : ∀ c ∈ d2, isPySpace c = false ∧ c ≠ ',') :
    parseDepends (d1 ++ " (>=1), ".data ++ d2) = [d1, d2] := by
  have h1ws : ∀ c ∈ d1, isPySpace c = false := fun c hc => (h1 c hc).1
  have h2ws : ∀ c ∈ d2, isPySpace c = false := fun c hc => (h2 c hc).1
  obtain ⟨c, d1', rfl⟩ : ∃ c d1', d1 = c :: d1' := by
    cases d1 with
    | nil => exact absurd rfl h1ne
    | cons c t => exact ⟨c, t, rfl⟩
  have hcd1 : c ∈ c :: d1' := List.mem_cons_self c d1'
  unfold parseDepends
  rw [if_neg (by simp)]
  have hV : (c :: d1') ++ " (>=1), ".data ++ d2 =
      ((c :: d1') ++ " (>=1)".data) ++ ',' :: (' ' :: d2) := by
    simp [List.append_assoc]
  rw [hV, splitOnChar_append_cons]
  have hnc1 : ',' ∉ (c :: d1') ++ " (>=1)".data := by
    intro hm
    rcases List.mem_append.mp hm with hm | hm
    · exact (h1 ',' hm).2 rfl
    · exact absurd hm (by decide)
  have hnc2 : ',' ∉ ' ' :: d2 := by
    intro hm
    rcases List.mem_cons.mp hm with hm | hm
    · exact absurd hm (by decide)
    · exact (h2 ',' hm).2 rfl
  rw [splitOnChar_of_not_mem hnc1, splitOnChar_of_not_mem hnc2]
  simp only [List.singleton_append, List.map_cons, List.map_nil]
  have hstrip1 : pyStrip ((c :: d1') ++ " (>=1)".data) = (c :: d1') ++ " (>=1)".data := by
    unfold pyStrip
    have hsl : stripLeft ((c :: d1') ++ " (>=1)".data) = (c :: d1') ++ " (>=1)".data := by
      rw [List.cons_append, stripLeft_cons_not_ws _ (h1ws c hcd1)]
    rw [hsl, stripRight_append_of_ne_nil (c :: d1') (by decide)]
    have : stripRight " (>=1)".data = " (>=1)".data := by decide
    rw [this]
  have hsplit1 : splitOnChar ' ' ((c :: d1') ++ " (>=1)".data) =
      [c :: d1'] ++ splitOnChar ' ' "(>=1)".data := by
    have hsh : (c :: d1') ++ " (>=1)".data = (c :: d1') ++ ' ' :: "(>=1)".data := rfl
    rw [hsh, splitOnChar_append_cons,
      splitOnChar_of_not_mem (not_mem_of_all_not_ws h1ws (by decide))]
  have hstrip2 : pyStrip (' ' :: d2) = d2 := by
    rw [pyStrip_cons_ws d2 (by decide), pyStrip_of_not_ws h2ws]
  have hsplit2 : splitOnChar ' ' d2 = [d2] :=
    splitOnChar_of_not_mem (not_mem_of_all_not_ws h2ws (by decide))
  rw [hstrip1, hsplit1, hstrip2, hsplit2]
  simp

/-! ### Claim C5 -/

/-- C5: for every well-formed record text with fields `Package: P` and
`Depends: d1 (>=1), d2`, the parser yields the single index entry
`P -> [d1, d2]`: each comma-separated entry of the Depends value is
truncated at its first space, discarding the version-constraint
annotation, and the resulting list preserves declaration order.
Well-formedness: `P` carries no surrounding whitespace and no newline,
and `d1`, `d2` are nonempty names free of whitespace and commas. -/
theorem C5_parse_round_trip {P d1 d2 : PyStr}
    (hP : pyStrip P = P) (hPn : '\n' ∉ P)
    (h1ne : d1 ≠ []) (h1 : ∀ c ∈ d1, isPySpace c = false ∧ c ≠ ',')
    (h2ne : d2 ≠ []) (h2 : ∀ c ∈ d2, isPySpace c = false ∧ c ≠ ',') :
    parse_packages_data ("Package: ".data ++ P ++
      '\n' :: ("Depends: ".data ++ (d1 ++ " (>=1), ".data ++ d2) ++ ['\n'])) =
      [(P, [d1, d2])] := by
  have h1ws : ∀ c ∈ d1, isPySpace c = false := fun c hc => (h1 c hc).1
  have h2ws : ∀ c ∈ d2, isPySpace c = false := fun c hc => (h2 c hc).1
  set V : PyStr := d1 ++ " (>=1), ".data ++ d2 with hVdef
  have hVn : '\n' ∉ V := by
    intro hm
    rcases List.mem_append.mp hm with hm | hm
    · rcases List.mem_append.mp hm with hm | hm
      · exact not_mem_of_all_not_ws h1ws (by decide) hm
      · exact absurd hm (by decide)
    · exact not_mem_of_all_not_ws h2ws (by decide) hm
  have hsr2 : stripRight (" (>=1), ".data ++ d2) = " (>=1), ".data ++ d2 := by
    rw [stripRight_append_of_ne_nil " (>=1), ".data
      (by rw [stripRight_of_not_ws h2ws]; exact h2ne), stripRight_of_not_ws h2ws]
  have hVstrip : pyStrip V = V := by
    obtain ⟨c, d1', hd1⟩ : ∃ c d1', d1 = c :: d1' := by
      cases d1 with
      | nil => exact absurd rfl h1ne
      | cons c t => exact ⟨c, t, rfl⟩
    unfold pyStrip
    have hsl : stripLeft V = V := by
      rw [hVdef, hd1, List.cons_append, List.cons_append,
        stripLeft_cons_not_ws _ (h1ws c (hd1 ▸ List.mem_cons_self c d1'))]
    rw [hsl, hVdef, List.append_assoc,
      stripRight_append_of_ne_nil d1
        (by rw [hsr2]; intro hnil; exact h2ne (List.append_eq_nil.mp hnil).2),
      hsr2]
  unfold parse_packages_data
  have hsplitText : splitOnChar '\n' ("Package: ".data ++ P ++
      '\n' :: ("Depends: ".data ++ V ++ ['\n'])) =
      [("Package: ".data ++ P), ("Depends: ".data ++ V), []] := by
    have e1 : "Package: ".data ++ P ++ '\n' :: ("Depends: ".data ++ V ++ ['\n']) =
        ("Package: ".data ++ P) ++ '\n' :: (("Depends: ".data ++ V) ++ '\n' :: []) := by
      simp [List.append_assoc]
    rw [e1, splitOnChar_append_cons, splitOnChar_append_cons]
    have hA : splitOnChar '\n' ("Package: ".data ++ P) = ["Package: ".data ++ P] := by
      refine splitOnChar_of_not_mem ?_
      intro hm
      rcases List.mem_append.mp hm with hm | hm
      · exact absurd hm (by decide)
      · exact hPn hm
    have hB : splitOnChar '\n' ("Depends: ".data ++ V) = ["Depends: ".data ++ V] := by
      refine splitOnChar_of_not_mem ?_
      intro hm
      rcases List.mem_append.mp hm with hm | hm
      · exact absurd hm (by decide)
      · exact hVn hm
    rw [hA, hB]
    rfl
  rw [hsplitText, List.foldl_cons, List.foldl_cons, List.foldl_cons, List.foldl_nil]
  rw [parseStep_package_line ([], []) hP, parseStep_depends_line _ hVstrip,
    parseStep_blank _ (by decide)]
  show commitRecord [] (dinsert (dinsert [] "Package".data P) "Depends".data V) =
    [(P, [d1, d2])]
  rw [commitRecord_package_depends, hVdef, parseDepends_versioned_pair h1ne h1 h2ne h2]
  rfl

/-- Closed instance of C5 at a concrete record. -/
theorem C5_parse_round_trip_witness :
    pyStrip "bash".data = "bash".data ∧ '\n' ∉ "bash".data ∧
    "libc6".data ≠ ([] : PyStr) ∧ "libtinfo6".data ≠ ([] : PyStr) ∧
    parse_packages_data ("Package: ".data ++ "bash".data ++
      '\n' :: ("Depends: ".data ++
        ("libc6".data ++ " (>=1), ".data ++ "libtinfo6".data) ++ ['\n'])) =
      [("bash".data, ["libc6".data, "libtinfo6".data])] :=
  ⟨by decide, by decide, by decide, by decide,
    C5_parse_round_trip (by decide) (by decide) (by decide) (by decide)
      (by decide) (by decide)⟩

/-! ### Claim C6 -/

/-- C6: a record with field `Package: X` and either no Depends field at
all or a Depends field with an empty value yields the index entry
`X -> []` (an empty dependency list). -/
theorem C6_empty_depends {X : PyStr} (hX : pyStrip X = X) (hXn : '\n' ∉ X) :
    parse_packages_data ("Package: ".data ++ X ++ ['\n']) = [(X, [])] ∧
    parse_packages_data ("Package: ".data ++ X ++
      '\n' :: ("Depends:".data ++ ['\n'])) = [(X, [])] := by
  have hA : splitOnChar '\n' ("Package: ".data ++ X) = ["Package: ".data ++ X] := by
    refine splitOnChar_of_not_mem ?_
    intro hm
    rcases List.mem_append.mp hm with hm | hm
    · exact absurd hm (by decide)
    · exact hXn hm
  constructor
  · unfold parse_packages_data
    have hsplit : splitOnChar '\n' ("Package: ".data ++ X ++ ['\n']) =
        [("Package: ".data ++ X), []] := by
      have e1 : "Package: ".data ++ X ++ ['\n'] =
          ("Package: ".data ++ X) ++ '\n' :: [] := by
        simp [List.append_assoc]
      rw [e1, splitOnChar_append_cons, hA]
      rfl
    rw [hsplit, List.foldl_cons, List.foldl_cons, List.foldl_nil]
    rw [parseStep_package_line ([], []) hX, parseStep_blank _ (by decide)]
    show commitRecord [] (dinsert [] "Package".data X) = [(X, [])]
    rw [commitRecord_package_only]
    rfl
  · unfold parse_packages_data
    have hsplit : splitOnChar '\n' ("Package: ".data ++ X ++
        '\n' :: ("Depends:".data ++ ['\n'])) =
        [("Package: ".data ++ X), "Depends:".data, []] := by
      have e1 : "Package: ".data ++ X ++ '\n' :: ("Depends:".data ++ ['\n']) =
          ("Package: ".data ++ X) ++ '\n' :: ("Depends:".data ++ '\n' :: []) := by
        simp [List.append_assoc]
      rw [e1, splitOnChar_append_cons, splitOnChar_append_cons, hA]
      rfl
    rw [hsplit, List.foldl_cons, List.foldl_cons, List.foldl_cons, List.foldl_nil]
    rw [parseStep_package_line ([], []) hX, parseStep_depends_empty_line _,
      parseStep_blank _ (by decide)]
    show commitRecord [] (dinsert (dinsert [] "Package".data X) "Depends".data []) =
      [(X, [])]
    rw [commitRecord_package_depends]
    rfl

/-- Closed instance of C6 at a concrete package name. -/
theorem C6_empty_depends_witness :
    pyStrip "libtinfo6".data = "libtinfo6".data ∧ '\n' ∉ "libtinfo6".data ∧
    parse_packages_data ("Package: ".data ++ "libtinfo6".data ++ ['\n']) =
      [("libtinfo6".data, [])] ∧
    parse_packages_data ("Package: ".data ++ "libtinfo6".data ++
      '\n' :: ("Depends:".data ++ ['\n'])) = [("libtinfo6".data, [])] := by
  refine ⟨by decide, by decide, ?_, ?_⟩
  · exact (C6_empty_depends (by decide) (by decide)).1
  · exact (C6_empty_depends (by decide) (by decide)).2

/-! ### Claim C8 -/

/-- C8: the parser is total and lenient (it is a total Lean function, so
it returns an index on every input with no error channel at all): a line
containing no colon is ignored as a no-op, both as a single fold step and
when inserted anywhere into the input text, and a record lacking a
Package field contributes nothing to the index when its terminating blank
line is processed (it is silently dropped, not an error). -/
theorem C8_parser_lenient :
    (∀ t1 t2 l : PyStr, '\n' ∉ l → ':' ∉ l → pyStrip l ≠ [] →
      parse_packages_data (t1 ++ '\n' :: (l ++ '\n' :: t2)) =
        parse_packages_data (t1 ++ '\n' :: t2)) ∧
    (∀ (st : PyDict (List PyStr) × PyDict PyStr) (l : PyStr),
      ':' ∉ l → pyStrip l ≠ [] → parseStep st l = st) ∧
    (∀ (info : PyDict (List PyStr)) (cp : PyDict PyStr) (l : PyStr),
      pyStrip l = [] → containsKey cp "Package".data = false →
      parseStep (info, cp) l = (info, [])) := by
  have hstep : ∀ (st : PyDict (List PyStr) × PyDict PyStr) (l : PyStr),
      ':' ∉ l → pyStrip l ≠ [] → parseStep st l = st := by
    intro st l hc hnb
    unfold parseStep
    rw [if_neg hnb, if_neg hc]
  refine ⟨?_, hstep, ?_⟩
  · intro t1 t2 l hnl hc hnb
    unfold parse_packages_data
    rw [splitOnChar_append_cons, splitOnChar_append_cons,
      splitOnChar_append_cons, splitOnChar_of_not_mem hnl]
    rw [List.foldl_append, List.foldl_append, List.foldl_append,
      List.foldl_cons, List.foldl_nil, hstep _ l hc hnb]
  · intro info cp l hb hnp
    rw [parseStep_blank _ hb]
    unfold commitRecord
    cases hlk : dlookup cp "Package".data with
    | none => rfl
    | some v =>
      unfold containsKey at hnp
      rw [hlk] at hnp
      exact Bool.noConfusion hnp

/-- Closed instance of C8: a colonless garbage line inserted in the text
does not change the parse, a colonless nonblank line is a no-op step, and
a blank line closing a record without a Package field drops it. -/
theorem C8_parser_lenient_witness :
    parse_packages_data ("Package: A".data ++
        '\n' :: ("garbage line".data ++ '\n' :: "\n".data)) =
      parse_packages_data ("Package: A".data ++ '\n' :: "\n".data) ∧
    parseStep ([("A".data, [])], [("Size".data, "42".data)]) "garbage line".data =
      ([("A".data, [])], [("Size".data, "42".data)]) ∧
    parseStep ([("A".data, [])], [("Size".data, "42".data)]) [] =
      ([("A".data, [])], []) :=
  ⟨C8_parser_lenient.1 "Package: A".data "\n".data "garbage line".data
      (by decide) (by decide) (by decide),
    C8_parser_lenient.2.1 _ "garbage line".data (by decide) (by decide),
    C8_parser_lenient.2.2 [("A".data, [])] [("Size".data, "42".data)] []
      (by decide) (by decide)⟩

/-! ### Claim C9 -/

/-- C9: a record is committed only when a blank line or the empty final
element produced by a trailing newline follows it: appending to any text
a newline and further lines none of which is blank leaves the parse
unchanged, so the pending final record never reaches the index; in
particular the one-record text with no trailing newline at all parses to
the empty index even though it has a Package field. -/
theorem C9_uncommitted_final_record :
    (∀ t r : PyStr, (∀ l ∈ splitOnChar '\n' r, pyStrip l ≠ []) →
      parse_packages_data (t ++ '\n' :: r) = parse_packages_data t) ∧
    parse_packages_data "Package: A".data = [] ∧
    containsKey (parse_packages_data "Package: A".data) "A".data = false := by
  refine ⟨?_, by decide, by decide⟩
  intro t r hr
  rw [parse_packages_data_append_newline,
    foldl_parseStep_fst_of_nonblank hr]
  rfl

/-- Closed instance of C9: a final record not followed by a blank line or
trailing newline is absent from the index. -/
theorem C9_uncommitted_final_record_witness :
    (∀ l ∈ splitOnChar '\n' ("Package: A".data ++ '\n' :: "Package: B".data),
      pyStrip l ≠ []) ∧
    parse_packages_data ("Package: A\n".data ++ '\n' ::
        ("Package: A".data ++ '\n' :: "Package: B".data)) =
      parse_packages_data "Package: A\n".data :=
  ⟨by decide,
    C9_uncommitted_final_record.1 "Package: A\n".data
      ("Package: A".data ++ '\n' :: "Package: B".data) (by decide)⟩

/-! ### Claim C10 -/

/-- C10: when two committed records carry the same Package name, the index
entry for that name is the dependency list of the later record: whatever
records the preceding text committed (including an earlier record for the
same name), a trailing committed record for `X` leaves exactly
`parseDepends` of its Depends value under key `X`; the parser never
merges or rejects duplicates, as the concrete two-record text shows. -/
theorem C10_later_record_overwrites :
    (∀ t X D : PyStr, '\n' ∉ X → pyStrip X = X → '\n' ∉ D → pyStrip D = D →
      dlookup (parse_packages_data (t ++ '\n' :: ("Package: ".data ++ X ++
        '\n' :: ("Depends: ".data ++ D ++ ['\n'])))) X = some (parseDepends D)) ∧
    parse_packages_data "Package: A\nDepends: x\n\nPackage: A\nDepends: y, z\n".data =
      [("A".data, ["y".data, "z".data])] := by
  refine ⟨?_, by decide⟩
  intro t X D hXn hX hDn hD
  rw [parse_packages_data_append_newline]
  have hsplit : splitOnChar '\n' ("Package: ".data ++ X ++
      '\n' :: ("Depends: ".data ++ D ++ ['\n'])) =
      [("Package: ".data ++ X), ("Depends: ".data ++ D), []] := by
    have e1 : "Package: ".data ++ X ++ '\n' :: ("Depends: ".data ++ D ++ ['\n']) =
        ("Package: ".data ++ X) ++ '\n' :: (("Depends: ".data ++ D) ++ '\n' :: []) := by
      simp [List.append_assoc]
    rw [e1, splitOnChar_append_cons, splitOnChar_append_cons]
    have hA : splitOnChar '\n' ("Package: ".data ++ X) = ["Package: ".data ++ X] := by
      refine splitOnChar_of_not_mem ?_
      intro hm
      rcases List.mem_append.mp hm with hm | hm
      · exact absurd hm (by decide)
      · exact hXn hm
    have hB : splitOnChar '\n' ("Depends: ".data ++ D) = ["Depends: ".data ++ D] := by
      refine splitOnChar_of_not_mem ?_
      intro hm
      rcases List.mem_append.mp hm with hm | hm
      · exact absurd hm (by decide)
      · exact hDn hm
    rw [hA, hB]
    rfl
  rw [hsplit, List.foldl_cons, List.foldl_cons, List.foldl_cons, List.foldl_nil]
  rw [parseStep_package_line _ hX, parseStep_depends_line _ hD,
    parseStep_blank _ (by decide)]
  show dlookup (commitRecord
      ((splitOnChar '\n' t).foldl parseStep ([], [])).1
      (dinsert (dinsert ((splitOnChar '\n' t).foldl parseStep ([], [])).2
        "Package".data X) "Depends".data D)) X = some (parseDepends D)
  rw [commitRecord_package_depends, dlookup_dinsert_self]

/-- Closed instance of C10: the index entry of a duplicated package name
is the later dependency list. -/
theorem C10_later_record_overwrites_witness :
    dlookup (parse_packages_data ("Package: A\nDepends: x\n".data ++
      '\n' :: ("Package: ".data ++ "A".data ++
        '\n' :: ("Depends: ".data ++ "y".data ++ ['\n'])))) "A".data =
      some (parseDepends "y".data) :=
  C10_later_record_overwrites.1 "Package: A\nDepends: x\n".data "A".data "y".data
    (by decide) (by decide) (by decide) (by decide)

/-! ### Claim C1 -/

/-- C1 as stated is false: for the index with the single entry `A -> [B]`
and `B` not a key of the index, the builder does NOT return a graph whose
only key is `A`; the depth-first search also visits the unknown
dependency `B` (the recursive call runs on every dependency and the
defaultdict access creates its entry), so `B` appears as a key of the
returned graph. -/
theorem C1_dangling_dep_counterexample :
    build_dependency_graph "A".data [("A".data, ["B".data])] =
      .ok [("A".data, ["B".data]), ("B".data, [])] ∧
    containsKey [("A".data, ["B".data]), ("B".data, [])] "B".data = true ∧
    build_dependency_graph "A".data [("A".data, ["B".data])] ≠
      .ok [("A".data, ["B".data])] := by
  refine ⟨rfl, by decide, ?_⟩
  intro h
  have h1 : build_dependency_graph "A".data [("A".data, ["B".data])] =
      .ok [("A".data, ["B".data]), ("B".data, [])] := rfl
  rw [h1] at h
  have h2 : ([("A".data, ["B".data]), ("B".data, [])] : PyDict (List PyStr)) =
      [("A".data, ["B".data])] := Except.ok.inj h
  exact absurd h2 (by decide)

/-- C1 (amended): for the index `{A: [B]}` with `B` not a key of the
index, `build` returns exactly `{A: {B}, B: {}}`: the unknown dependency
`B` becomes a key of the result with an empty dependency set; it is never
expanded (its entry stays empty and contributes no edges), while the edge
`A -> B` records it as a leaf value. -/
theorem C1_dangling_dep_amended :
    build_dependency_graph "A".data [("A".data, ["B".data])] =
      .ok [("A".data, ["B".data]), ("B".data, [])] ∧
    dlookup [("A".data, ["B".data]), ("B".data, [])] "B".data = some [] := by
  exact ⟨rfl, by decide⟩

/-! ### Claim C3 -/

/-- C3: on the cyclic index where `A` depends on `B` and `B` depends on
`A`, the builder terminates and returns exactly `{A: {B}, B: {A}}`; the
edge into the already-visited `A` is still recorded.  The second conjunct
shows the search finishes with the same result under every fuel of at
least three, so the fuel bound is not what stops the recursion: the
visited set is. -/
theorem C3_cycle_terminates :
    build_dependency_graph "A".data [("A".data, ["B".data]), ("B".data, ["A".data])] =
      .ok [("A".data, ["B".data]), ("B".data, ["A".data])] ∧
    ∀ extra : Nat,
      dfs [("A".data, ["B".data]), ("B".data, ["A".data])] (extra + 3) "A".data ⟨[], []⟩ =
        some ⟨[("A".data, ["B".data]), ("B".data, ["A".data])], ["A".data, "B".data]⟩ := by
  refine ⟨rfl, ?_⟩
  intro extra
  rfl

/-! ### Claim C4 -/

/-- C4: for every index and root name that is not a key of the index, the
builder fails with the not-found error and never returns a graph; the
check happens before any search step, so no partial graph exists. -/
theorem C4_root_not_found (root : PyStr) (info : PyDict (List PyStr))
    (h : containsKey info root = false) :
    build_dependency_graph root info =
      .error ("Package ".data ++ root ++ " not found in repository.".data) ∧
    ∀ g, build_dependency_graph root info ≠ .ok g := by
  unfold build_dependency_graph
  rw [if_pos h]
  exact ⟨rfl, fun g h' => Except.noConfusion h'⟩

/-- Closed instance of C4 at a concrete unknown root. -/
theorem C4_root_not_found_witness :
    containsKey [("A".data, ["B".data])] "unknown".data = false ∧
    build_dependency_graph "unknown".data [("A".data, ["B".data])] =
      .error ("Package ".data ++ "unknown".data ++ " not found in repository.".data) :=
  ⟨by decide,
    (C4_root_not_found "unknown".data [("A".data, ["B".data])] (by decide)).1⟩

/-! ### Claim C7 -/

/-- C7: for the graph `{bash: {libc6, libtinfo6}, libc6: {libgcc1},
libtinfo6: {}}` the serializer yields exactly the header `digraph G` with
opening brace, the three indented edge statements, and the closing brace,
with no edge lines for `libtinfo6`; both insertion orders of the two
`bash` edges are covered, and in general an entry with an empty
dependency set contributes no edge lines at all. -/
theorem C7_serialize_literal :
    generate_graphviz_code [("bash".data, ["libc6".data, "libtinfo6".data]),
        ("libc6".data, ["libgcc1".data]), ("libtinfo6".data, [])] =
      "digraph G \x7b\n    \"bash\" -> \"libc6\";\n    \"bash\" -> \"libtinfo6\";\n    \"libc6\" -> \"libgcc1\";\n\x7d".data ∧
    generate_graphviz_code [("bash".data, ["libtinfo6".data, "libc6".data]),
        ("libc6".data, ["libgcc1".data]), ("libtinfo6".data, [])] =
      "digraph G \x7b\n    \"bash\" -> \"libtinfo6\";\n    \"bash\" -> \"libc6\";\n    \"libc6\" -> \"libgcc1\";\n\x7d".data ∧
    ∀ (g1 g2 : PyDict (List PyStr)) (p : PyStr),
      edgeLines (g1 ++ (p, []) :: g2) = edgeLines (g1 ++ g2) := by
  refine ⟨by decide, by decide, ?_⟩
  intro g1 g2 p
  induction g1 with
  | nil => rfl
  | cons q rest ih =>
    obtain ⟨qk, qv⟩ := q
    simp only [List.cons_append, edgeLines, List.append_eq, ih]

/-! ### Builder invariants -/

theorem setAdd_mem {s : List PyStr} {x y : PyStr} :
    x ∈ setAdd s y ↔ x ∈ s ∨ x = y := by
  unfold setAdd
  by_cases h : y ∈ s
  · simp only [if_pos h]
    constructor
    · exact Or.inl
    · rintro (hx | rfl)
      · exact hx
      · exact h
  · simp [if_neg h, List.mem_append]

theorem dlookup_ensureKey (g : PyDict (List PyStr)) (pkg q : PyStr) :
    dlookup (ensureKey g pkg) q =
      if q = pkg then some ((dlookup g pkg).getD []) else dlookup g q := by
  induction g with
  | nil =>
    by_cases hq : q = pkg
    · subst hq
      simp [ensureKey, dlookup]
    · simp [ensureKey, dlookup, hq, Ne.symm hq]
  | cons kv rest ih =>
    obtain ⟨k, v⟩ := kv
    by_cases hk : k = pkg
    · subst hk
      by_cases hq : q = k
      · subst hq
        simp [ensureKey, dlookup]
      · simp [ensureKey, dlookup, hq, Ne.symm hq]
    · by_cases hq : q = pkg
      · subst hq
        have hkq : ¬k = q := hk
        simp [ensureKey, dlookup, hk, hkq, ih]
      · by_cases hkq : k = q
        · subst hkq
          simp [ensureKey, dlookup, hk, hq]
        · simp [ensureKey, dlookup, hk, hkq, hq, ih]

theorem dlookup_addEdge (g : PyDict (List PyStr)) (pkg dep q : PyStr) :
    dlookup (addEdge g pkg dep) q =
      if q = pkg then some (setAdd ((dlookup g pkg).getD []) dep)
      else dlookup g q := by
  induction g with
  | nil =>
    by_cases hq : q = pkg
    · subst hq
      simp [addEdge, dlookup, setAdd]
    · simp [addEdge, dlookup, hq, Ne.symm hq]
  | cons kv rest ih =>
    obtain ⟨k, v⟩ := kv
    by_cases hk : k = pkg
    · subst hk
      by_cases hq : q = k
      · subst hq
        simp [addEdge, dlookup]
      · simp [addEdge, dlookup, hq, Ne.symm hq]
    · by_cases hq : q = pkg
      · subst hq
        have hkq : ¬k = q := hk
        simp [addEdge, dlookup, hk, hkq, ih]
      · by_cases hkq : k = q
        · subst hkq
          simp [addEdge, dlookup, hk, hq]
        · simp [addEdge, dlookup, hk, hkq, hq, ih]

theorem containsKey_ensureKey (g : PyDict (List PyStr)) (pkg q : PyStr) :
    containsKey (ensureKey g pkg) q = true ↔ containsKey g q = true ∨ q = pkg := by
  unfold containsKey
  rw [dlookup_ensureKey]
  by_cases hq : q = pkg
  · simp [hq]
  · simp [hq]

theorem containsKey_addEdge (g : PyDict (List PyStr)) (pkg dep q : PyStr) :
    containsKey (addEdge g pkg dep) q = true ↔ containsKey g q = true ∨ q = pkg := by
  unfold containsKey
  rw [dlookup_addEdge]
  by_cases hq : q = pkg
  · simp [hq]
  · simp [hq]

theorem dlookup_ensureKey_entries {g : PyDict (List PyStr)} {pkg p : PyStr}
    {deps : List PyStr} (h : dlookup (ensureKey g pkg) p = some deps) :
    dlookup g p = some deps ∨ (p = pkg ∧ deps = []) := by
  rw [dlookup_ensureKey] at h
  by_cases hp : p = pkg
  · rw [if_pos hp] at h
    cases hg : dlookup g pkg with
    | none =>
      rw [hg] at h
      exact Or.inr ⟨hp, (Option.some.inj h).symm⟩
    | some v =>
      rw [hg] at h
      exact Or.inl (hp ▸ hg.trans (by simpa using h))
  · rw [if_neg hp] at h
    exact Or.inl h

theorem dlookup_addEdge_entries {g : PyDict (List PyStr)} {pkg dep p : PyStr}
    {deps : List PyStr} (h : dlookup (addEdge g pkg dep) p = some deps)
    {d : PyStr} (hd : d ∈ deps) :
    d = dep ∨ ∃ old, dlookup g p = some old ∧ d ∈ old := by
  rw [dlookup_addEdge] at h
  by_cases hp : p = pkg
  · rw [if_pos hp] at h
    have hdeps : deps = setAdd ((dlookup g pkg).getD []) dep := (Option.some.inj h).symm
    subst hdeps
    rcases setAdd_mem.mp hd with hold | rfl
    · cases hg : dlookup g pkg with
      | none =>
        rw [hg] at hold
        exact absurd hold (List.not_mem_nil d)
      | some old =>
        rw [hg] at hold
        exact Or.inr ⟨old, hp ▸ hg, hold⟩
    · exact Or.inl rfl
  · rw [if_neg hp] at h
    exact Or.inr ⟨deps, h, hd⟩

theorem dfsList_inv (info : PyDict (List PyStr)) (root : PyStr)
    {dfsF : PyStr → BuildState → Option BuildState}
    (hF : DfsSpec info root dfsF) :
    ∀ (deps : List PyStr) (pkg : PyStr) (st st' : BuildState) (X : List PyStr),
      dfsList dfsF pkg deps st = some st' →
      pkg ∈ st.visited → KeysVisited st → VisitedReach info root st →
      (∀ d ∈ deps, Reaches info root d) → PendingOK st X →
      KeysVisited st' ∧ VisitedReach info root st' ∧ PendingOK st' X ∧
        st.visited ⊆ st'.visited := by
  intro deps
  induction deps with
  | nil =>
    intro pkg st st' X h hpkg hKV hVR hreach hP
    have hst : st = st' := Option.some.inj h
    subst hst
    exact ⟨hKV, hVR, hP, List.Subset.refl _⟩
  | cons dep rest ih =>
    intro pkg st st' X h hpkg hKV hVR hreach hP
    cases hF_eq : dfsF dep ⟨addEdge st.graph pkg dep, st.visited⟩ with
    | none =>
      rw [dfsList, hF_eq] at h
      exact Option.noConfusion h
    | some st2 =>
      rw [dfsList, hF_eq] at h
      have hKV_e : KeysVisited ⟨addEdge st.graph pkg dep, st.visited⟩ := by
        intro q
        rw [show (⟨addEdge st.graph pkg dep, st.visited⟩ : BuildState).graph =
          addEdge st.graph pkg dep from rfl]
        rw [containsKey_addEdge]
        constructor
        · rintro (hq | rfl)
          · exact (hKV q).mp hq
          · exact hpkg
        · intro hq
          exact Or.inl ((hKV q).mpr hq)
      have hVR_e : VisitedReach info root ⟨addEdge st.graph pkg dep, st.visited⟩ := hVR
      have hP_e : PendingOK ⟨addEdge st.graph pkg dep, st.visited⟩ (dep :: X) := by
        intro p deps' d hl hd
        rcases dlookup_addEdge_entries hl hd with rfl | ⟨old, hold, hdold⟩
        · exact Or.inr (List.mem_cons_self d X)
        · rcases hP p old d hold hdold with hv | hx
          · exact Or.inl hv
          · exact Or.inr (List.mem_cons_of_mem dep hx)
      have hspec := hF dep ⟨addEdge st.graph pkg dep, st.visited⟩ st2 (dep :: X)
        hF_eq hKV_e hVR_e (hreach dep (List.mem_cons_self dep rest)) hP_e
      obtain ⟨hKV2, hVR2, hP2', hdep2, hsub2⟩ := hspec
      have hP2 : PendingOK st2 X := by
        intro p deps' d hl hd
        rcases hP2' p deps' d hl hd with hv | hx
        · exact Or.inl hv
        · rcases List.mem_cons.mp hx with rfl | hx'
          · exact Or.inl hdep2
          · exact Or.inr hx'
      have hrest := ih pkg st2 st' X h (hsub2 hpkg) hKV2 hVR2
        (fun d hd => hreach d (List.mem_cons_of_mem dep hd)) hP2
      exact ⟨hrest.1, hrest.2.1, hrest.2.2.1,
        fun x hx => hrest.2.2.2 (hsub2 hx)⟩

theorem dfs_inv (info : PyDict (List PyStr)) (root : PyStr) :
    ∀ fuel, DfsSpec info root (dfs info fuel) := by
  intro fuel
  induction fuel with
  | zero =>
    intro pkg st st' X h
    exact absurd h (by rw [dfs]; exact Option.noConfusion)
  | succ fuel ih =>
    intro pkg st st' X h hKV hVR hreach hP
    by_cases hv : pkg ∈ st.visited
    · rw [dfs, if_pos hv] at h
      have hst : st = st' := Option.some.inj h
      subst hst
      exact ⟨hKV, hVR, hP, hv, List.Subset.refl _⟩
    · rw [dfs, if_neg hv] at h
      have hKV1 : KeysVisited ⟨ensureKey st.graph pkg, st.visited ++ [pkg]⟩ := by
        intro q
        rw [show (⟨ensureKey st.graph pkg, st.visited ++ [pkg]⟩ : BuildState).graph =
          ensureKey st.graph pkg from rfl]
        rw [containsKey_ensureKey]
        constructor
        · rintro (hq | rfl)
          · exact List.mem_append_left _ ((hKV q).mp hq)
          · exact List.mem_append_right _ (List.mem_cons_self q [])
        · intro hq
          rcases List.mem_append.mp hq with hq | hq
          · exact Or.inl ((hKV q).mpr hq)
          · exact Or.inr (List.mem_singleton.mp hq)
      have hVR1 : VisitedReach info root ⟨ensureKey st.graph pkg, st.visited ++ [pkg]⟩ := by
        intro p hp
        rcases List.mem_append.mp hp with hp | hp
        · exact hVR p hp
        · rw [List.mem_singleton.mp hp]
          exact hreach
      have hP1 : PendingOK ⟨ensureKey st.graph pkg, st.visited ++ [pkg]⟩ X := by
        intro p deps' d hl hd
        rcases dlookup_ensureKey_entries hl with hold | ⟨rfl, rfl⟩
        · rcases hP p deps' d hold hd with hvd | hx
          · exact Or.inl (List.mem_append_left _ hvd)
          · exact Or.inr hx
        · exact absurd hd (List.not_mem_nil d)
      have hpkg1 : pkg ∈ (⟨ensureKey st.graph pkg, st.visited ++ [pkg]⟩ : BuildState).visited :=
        List.mem_append_right _ (List.mem_cons_self pkg [])
      have hres := dfsList_inv info root ih ((dlookup info pkg).getD []) pkg
        ⟨ensureKey st.graph pkg, st.visited ++ [pkg]⟩ st' X h hpkg1 hKV1 hVR1
        (fun d hd => Reaches.step hreach hd) hP1
      exact ⟨hres.1, hres.2.1, hres.2.2.1, hres.2.2.2 hpkg1,
        fun x hx => hres.2.2.2 (List.mem_append_left _ hx)⟩

/-! ### Claim C2 -/

/-- C2: whenever the builder succeeds, the returned graph contains the
root as a key, every key of the graph is reachable from the root by zero
or more dependency edges of the index, and for every package in the
graph, every recorded dependency name that is also a key of the index is
itself a key of the graph (closure property). -/
theorem C2_closure_and_reachability (root : PyStr) (info : PyDict (List PyStr))
    (g : PyDict (List PyStr)) (h : build_dependency_graph root info = .ok g) :
    containsKey g root = true ∧
    (∀ p, containsKey g p = true → Reaches info root p) ∧
    (∀ p deps d, dlookup g p = some deps → d ∈ deps →
      containsKey info d = true → containsKey g d = true) := by
  unfold build_dependency_graph at h
  by_cases hroot : containsKey info root = false
  · rw [if_pos hroot] at h
    exact Except.noConfusion h
  · rw [if_neg hroot] at h
    cases hdfs : dfs info (buildFuel info) root ⟨[], []⟩ with
    | none =>
      rw [hdfs] at h
      exact Except.noConfusion h
    | some st =>
      rw [hdfs] at h
      have hg : g = st.graph := (Except.ok.inj h).symm
      subst hg
      have hspec := dfs_inv info root (buildFuel info) root ⟨[], []⟩ st []
        hdfs
        (fun p => by simp [containsKey, dlookup])
        (fun p hp => absurd hp (List.not_mem_nil p))
        (Reaches.refl root)
        (fun p deps d hl _ => absurd hl (by simp [dlookup]))
      obtain ⟨hKV, hVR, hP, hroot_vis, _⟩ := hspec
      refine ⟨(hKV root).mpr hroot_vis, ?_, ?_⟩
      · intro p hp
        exact hVR p ((hKV p).mp hp)
      · intro p deps d hl hd _
        rcases hP p deps d hl hd with hvd | hx
        · exact (hKV d).mpr hvd
        · exact absurd hx (List.not_mem_nil d)

/-- Closed instance of C2 at a concrete successful build. -/
theorem C2_closure_and_reachability_witness :
    build_dependency_graph "A".data [("A".data, ["B".data])] =
      .ok [("A".data, ["B".data]), ("B".data, [])] ∧
    (containsKey [("A".data, ["B".data]), ("B".data, [])] "A".data = true ∧
     (∀ p, containsKey [("A".data, ["B".data]), ("B".data, [])] p = true →
        Reaches [("A".data, ["B".data])] "A".data p) ∧
     (∀ p deps d, dlookup [("A".data, ["B".data]), ("B".data, [])] p = some deps →
        d ∈ deps → containsKey [("A".data, ["B".data])] d = true →
        containsKey [("A".data, ["B".data]), ("B".data, [])] d = true)) :=
  ⟨rfl, C2_closure_and_reachability "A".data [("A".data, ["B".data])]
    [("A".data, ["B".data]), ("B".data, [])] rfl⟩

/-! ### Fuel sufficiency for the canonical fuel -/

theorem depsAll_length (info : PyDict (List PyStr)) :
    (depsAll info).length = allDepsLen info := by
  induction info with
  | nil => rfl
  | cons kv rest ih => simp [depsAll, allDepsLen, List.length_append] at ih ⊢; omega

theorem dlookup_subset_depsAll {info : PyDict (List PyStr)} {p : PyStr}
    {deps : List PyStr} (h : dlookup info p = some deps) : deps ⊆ depsAll info := by
  induction info with
  | nil => exact absurd h (by simp [dlookup])
  | cons kv rest ih =>
    obtain ⟨k, v⟩ := kv
    by_cases hk : k = p
    · rw [show dlookup ((k, v) :: rest) p = some v by simp [dlookup, hk]] at h
      rw [← Option.some.inj h]
      exact fun x hx =>
        (show depsAll ((k, v) :: rest) = v ++ depsAll rest from rfl) ▸
          List.mem_append_left _ hx
    · rw [show dlookup ((k, v) :: rest) p = dlookup rest p by simp [dlookup, hk]] at h
      exact fun x hx =>
        (show depsAll ((k, v) :: rest) = v ++ depsAll rest from rfl) ▸
          List.mem_append_right _ (ih h hx)

theorem missingCount_mono (pool : List PyStr) {visited visited' : List PyStr}
    (h : visited ⊆ visited') : missingCount pool visited' ≤ missingCount pool visited := by
  induction pool with
  | nil => exact Nat.le_refl _
  | cons x rest ih =>
    unfold missingCount at ih ⊢
    rw [List.filter_cons, List.filter_cons]
    by_cases hx' : x ∈ visited'
    · rw [if_neg (by simp [hx'])]
      by_cases hx : x ∈ visited
      · rw [if_neg (by simp [hx])]
        exact ih
      · rw [if_pos (by simp [hx])]
        exact Nat.le_succ_of_le ih
    · have hx : x ∉ visited := fun hm => hx' (h hm)
      rw [if_pos (by simp [hx']), if_pos (by simp [hx])]
      simpa using ih

theorem missingCount_strict {pool visited : List PyStr} {pkg : PyStr}
    (hmem : pkg ∈ pool) (hnv : pkg ∉ visited) :
    missingCount pool (visited ++ [pkg]) < missingCount pool visited := by
  induction pool with
  | nil => exact absurd hmem (List.not_mem_nil pkg)
  | cons x rest ih =>
    unfold missingCount at ih ⊢
    rw [List.filter_cons, List.filter_cons]
    by_cases hx : x = pkg
    · subst hx
      rw [if_neg (by simp), if_pos (by simp [hnv])]
      have hmono := missingCount_mono rest (List.subset_append_left visited [x])
      unfold missingCount at hmono
      exact Nat.lt_succ_of_le hmono
    · rcases List.mem_cons.mp hmem with rfl | hrest
      · exact absurd rfl hx
      · by_cases hxv : x ∈ visited
        · have c1 : ¬(decide (x ∉ visited ++ [pkg]) = true) := by
            rw [decide_eq_true_eq]
            intro hc
            exact hc (List.mem_append_left _ hxv)
          have c2 : ¬(decide (x ∉ visited) = true) := by
            rw [decide_eq_true_eq]
            exact not_not_intro hxv
          rw [if_neg c1, if_neg c2]
          exact ih hrest
        · have hxv' : x ∉ visited ++ [pkg] := by
            intro hm
            rcases List.mem_append.mp hm with hm | hm
            · exact hxv hm
            · exact hx (List.mem_singleton.mp hm)
          have c1 : decide (x ∉ visited ++ [pkg]) = true := decide_eq_true hxv'
          have c2 : decide (x ∉ visited) = true := decide_eq_true hxv
          rw [if_pos c1, if_pos c2]
          exact Nat.succ_lt_succ (ih hrest)

theorem dfsList_visited_sub {dfsF : PyStr → BuildState → Option BuildState}
    (hF : ∀ pkg st st', dfsF pkg st = some st' → st.visited ⊆ st'.visited) :
    ∀ (deps : List PyStr) (pkg : PyStr) (st st' : BuildState),
      dfsList dfsF pkg deps st = some st' → st.visited ⊆ st'.visited := by
  intro deps
  induction deps with
  | nil =>
    intro pkg st st' h
    rw [Option.some.inj h]
    exact List.Subset.refl _
  | cons dep rest ih =>
    intro pkg st st' h
    cases hF_eq : dfsF dep ⟨addEdge st.graph pkg dep, st.visited⟩ with
    | none =>
      rw [dfsList, hF_eq] at h
      exact Option.noConfusion h
    | some st2 =>
      rw [dfsList, hF_eq] at h
      exact fun x hx => ih pkg st2 st' h (hF dep _ st2 hF_eq hx)

theorem dfs_visited_sub (info : PyDict (List PyStr)) :
    ∀ (fuel : Nat) (pkg : PyStr) (st st' : BuildState),
      dfs info fuel pkg st = some st' → st.visited ⊆ st'.visited := by
  intro fuel
  induction fuel with
  | zero =>
    intro pkg st st' h
    exact absurd h (by rw [dfs]; exact Option.noConfusion)
  | succ fuel ih =>
    intro pkg st st' h
    by_cases hv : pkg ∈ st.visited
    · rw [dfs, if_pos hv] at h
      rw [Option.some.inj h]
      exact List.Subset.refl _
    · rw [dfs, if_neg hv] at h
      have hsub := dfsList_visited_sub (fun p s s' hs => ih p s s' hs)
        ((dlookup info pkg).getD []) pkg ⟨ensureKey st.graph pkg, st.visited ++ [pkg]⟩ st' h
      exact fun x hx => hsub (List.mem_append_left _ hx)

theorem dfsList_isSome (info : PyDict (List PyStr)) (pool : List PyStr) (fuel : Nat)
    (ihdfs : ∀ pkg st, pkg ∈ pool → missingCount pool st.visited < fuel →
      (dfs info fuel pkg st).isSome = true) :
    ∀ (deps : List PyStr) (pkg : PyStr) (st : BuildState), deps ⊆ pool →
      missingCount pool st.visited < fuel →
      (dfsList (dfs info fuel) pkg deps st).isSome = true := by
  intro deps
  induction deps with
  | nil =>
    intro pkg st hsub hmiss
    rw [dfsList]
    rfl
  | cons dep rest ih =>
    intro pkg st hsub hmiss
    have h1 := ihdfs dep ⟨addEdge st.graph pkg dep, st.visited⟩
      (hsub (List.mem_cons_self dep rest)) hmiss
    obtain ⟨st2, hst2⟩ := Option.isSome_iff_exists.mp h1
    rw [dfsList, hst2]
    have hsub2 : st.visited ⊆ st2.visited :=
      dfs_visited_sub info fuel dep ⟨addEdge st.graph pkg dep, st.visited⟩ st2 hst2
    exact ih pkg st2 (fun d hd => hsub (List.mem_cons_of_mem dep hd))
      (Nat.lt_of_le_of_lt (missingCount_mono pool hsub2) hmiss)

theorem dfs_isSome (info : PyDict (List PyStr)) (pool : List PyStr)
    (hpool : ∀ p deps, dlookup info p = some deps → deps ⊆ pool) :
    ∀ (fuel : Nat) (pkg : PyStr) (st : BuildState), pkg ∈ pool →
      missingCount pool st.visited < fuel → (dfs info fuel pkg st).isSome = true := by
  intro fuel
  induction fuel with
  | zero =>
    intro pkg st hpkg hmiss
    exact absurd hmiss (Nat.not_lt_zero _)
  | succ fuel ih =>
    intro pkg st hpkg hmiss
    by_cases hv : pkg ∈ st.visited
    · rw [dfs, if_pos hv]
      rfl
    · rw [dfs, if_neg hv]
      have hmiss1 : missingCount pool (st.visited ++ [pkg]) < fuel :=
        Nat.lt_of_lt_of_le (missingCount_strict hpkg hv) (Nat.lt_succ_iff.mp hmiss)
      have hdeps : ((dlookup info pkg).getD []) ⊆ pool := by
        cases hl : dlookup info pkg with
        | none => simp
        | some deps => simpa using hpool pkg deps hl
      exact dfsList_isSome info pool fuel ih ((dlookup info pkg).getD []) pkg
        ⟨ensureKey st.graph pkg, st.visited ++ [pkg]⟩ hdeps hmiss1

/-- The canonical fuel of `build_dependency_graph` always suffices: the
search from the root on the empty state never exhausts it, so the
fuel-exhaustion error branch of the embedding is dead code. -/
theorem dfs_isSome_of_enough_fuel (info : PyDict (List PyStr)) (root : PyStr) :
    (dfs info (buildFuel info) root ⟨[], []⟩).isSome = true := by
  have hpool : ∀ p deps, dlookup info p = some deps → deps ⊆ root :: depsAll info :=
    fun p deps h x hx => List.mem_cons_of_mem root (dlookup_subset_depsAll h hx)
  refine dfs_isSome info (root :: depsAll info) hpool (buildFuel info) root ⟨[], []⟩
    (List.mem_cons_self root (depsAll info)) ?_
  have hle : missingCount (root :: depsAll info) [] ≤ (root :: depsAll info).length :=
    List.length_filter_le _ _
  have hlen : (root :: depsAll info).length = allDepsLen info + 1 := by
    rw [List.length_cons, depsAll_length]
  rw [hlen] at hle
  exact Nat.lt_of_le_of_lt hle (by unfold buildFuel; omega)
